import Mathlib

/-!
Verification of the `simple_test_case` procedural-macro crate.

The development shallowly embeds the crate's source (src/lib.rs, src/test_case.rs,
src/util.rs, src/dir_cases.rs) in Lean.  Strings are modelled as lists of Unicode
code points (`List Nat`); syntax-tree values (expressions, attributes, statements,
functions) are modelled structurally at exactly the granularity the crate inspects
them.  Fallible operations return `Except`/`Option`; a Rust panic inside the macro
is modelled as `Option.none`.
-/

/-- Convenience conversion from a Lean string literal to the code-point model. -/
def ofString (s : String) : List Nat := s.data.map Char.toNat

/-- Models Rust `u8::to_ascii_lowercase` / `str::to_ascii_lowercase` applied
per character: ASCII uppercase letters are shifted down, everything else kept. -/
def toAsciiLower (c : Nat) : Nat := if 65 ≤ c ∧ c ≤ 90 then c + 32 else c

/-- Models Rust `char::is_ascii_alphanumeric`. -/
def isAsciiAlphanumeric (c : Nat) : Bool :=
  decide ((97 ≤ c ∧ c ≤ 122) ∨ (65 ≤ c ∧ c ≤ 90) ∨ (48 ≤ c ∧ c ≤ 57))

/-- Models Rust `char::is_ascii_alphabetic`. -/
def isAsciiAlpha (c : Nat) : Bool :=
  decide ((97 ≤ c ∧ c ≤ 122) ∨ (65 ≤ c ∧ c ≤ 90))

/-- Models Rust `char::is_ascii_digit`. -/
def isAsciiDigit (c : Nat) : Bool := decide (48 ≤ c ∧ c ≤ 57)

/-- The per-character map used by `slugify_path` in src/util.rs:
`|c| if c.is_ascii_alphanumeric() { c } else { '_' }` (95 is `'_'`). -/
def slugChar (c : Nat) : Nat := if isAsciiAlphanumeric c then c else 95

/-- Models the `char::is_numeric` test of src/util.rs.  It is applied only to the
output of `slugChar`, whose characters are ASCII alphanumerics or `'_'`, so the
ASCII-digit test coincides with Rust's Unicode-numeric test on every reachable
input. -/
def isNumericChar (c : Nat) : Bool := decide (48 ≤ c ∧ c ≤ 57)

/-- Models `s.starts_with(|c: char| c.is_numeric())` from src/util.rs. -/
def startsWithNumeric : List Nat → Bool
  | [] => false
  | c :: _ => isNumericChar c

/-- Embedding of `slugify_path` from src/util.rs: lowercase, replace every
non-ASCII-alphanumeric character with `'_'`, and prepend `'_'` when the result
starts with a digit. -/
def slugify_path (p : List Nat) : List Nat :=
  let s := (p.map toAsciiLower).map slugChar
  if startsWithNumeric s then 95 :: s else s

/-- Valid first character of an ASCII Rust identifier: letter or `'_'`.
Used to model the validity check inside `proc_macro2::Ident::new`. -/
def isIdentStart (c : Nat) : Bool := isAsciiAlpha c || decide (c = 95)

/-- Valid continuation character of an ASCII Rust identifier. -/
def isIdentContinue (c : Nat) : Bool := isAsciiAlphanumeric c || decide (c = 95)

/-- Validity of a bare identifier, restricted to the ASCII fragment (the real
`proc_macro2` check also admits Unicode XID identifiers; every behaviour the
claims exercise is ASCII). -/
def isValidIdent : List Nat → Bool
  | [] => false
  | c :: rest => isIdentStart c && rest.all isIdentContinue

/-- Models `proc_macro2::Ident::new`, which panics when its argument is not a
valid identifier; the panic is modelled as `none`. -/
def identNew (s : List Nat) : Option (List Nat) :=
  if isValidIdent s then some s else none

/-- The `.replace(' ', "_")` step of `slugify_ident` (src/test_case.rs,
src/lib.rs), per character: 32 is `' '`, 95 is `'_'`. -/
def replaceSpaceChar (c : Nat) : Nat := if c = 32 then 95 else c

/-- Embedding of `slugify_ident` from src/test_case.rs / src/lib.rs:
`Ident::new(&name.value().to_ascii_lowercase().replace(' ', "_"), name.span())`.
Only spaces are replaced; `Ident::new` panics (here: `none`) when the result is
not a valid identifier. -/
def slugify_ident (name : List Nat) : Option (List Nat) :=
  identNew ((name.map toAsciiLower).map replaceSpaceChar)

/-- Characters for which the spaces-only case-name sanitizer can still yield a
valid identifier: ASCII alphanumerics, space, and underscore.  Used to state
the (amended) totality domain of `slugify_ident`. -/
def identAllowedChar (c : Nat) : Bool :=
  isAsciiAlphanumeric c || decide (c = 32) || decide (c = 95)

/-- An argument expression of a test case, at the granularity the macro
inspects it: either an opaque expression token or a string literal (string
literals are themselves expressions, and also terminate the case grammar). -/
inductive Expr where
  | atom (n : Nat)
  | strLit (s : List Nat)
deriving DecidableEq

/-- One token of a case-declaration's argument stream, as consumed by
`TestCase::parse`: an opaque expression token, `','`, `';'`, or a string
literal. -/
inductive PTok where
  | e (n : Nat)
  | comma
  | semi
  | str (s : List Nat)
deriving DecidableEq

/-- Models `Expr::parse` on a single token of the stream: expression atoms and
string literals parse as expressions, punctuation does not. -/
def parseExprTok : PTok → Option Expr
  | .e n => some (.atom n)
  | .str s => some (.strLit s)
  | _ => none

/-- Models `Punctuated::parse_separated_nonempty_with(input, Expr::parse)`:
one or more comma-separated expressions; returns the parsed expressions and the
unconsumed remainder of the stream. -/
def parseArgs : List PTok → Option (List Expr × List PTok)
  | [] => none
  | t :: rest =>
    match parseExprTok t with
    | none => none
    | some ex =>
      match rest with
      | PTok.comma :: rest2 =>
        match parseArgs rest2 with
        | none => none
        | some (es, r) => some (ex :: es, r)
      | _ => some ([ex], rest)

/-- A parsed test case declaration (struct `TestCase` of src/test_case.rs /
src/lib.rs): the argument expressions, the display name, and the source span
of the declaration. -/
structure TestCase where
  span : Nat
  args : List Expr
  name : List Nat
deriving DecidableEq

/-- Embedding of `<TestCase as Parse>::parse` as invoked through
`parse_macro_input!`/`Attribute::parse_args` (which demand that the whole token
stream is consumed): expressions, then `';'`, then a string literal, then end of
input.  `sp` is `input.span()`. -/
def parseTestCase (sp : Nat) (toks : List PTok) : Option TestCase :=
  match parseArgs toks with
  | none => none
  | some (args, PTok.semi :: PTok.str s :: rest) =>
    if rest = [] then some ⟨sp, args, s⟩ else none
  | some _ => none

/-- The token that renders a given expression (inverse of `parseExprTok`). -/
def exprToken : Expr → PTok
  | .atom n => .e n
  | .strLit s => .str s

/-- The well-formed token stream of a case declaration with the given arguments
and display name: `expr (',' expr)* ';' string_literal`. -/
def caseTokens (args : List Expr) (name : List Nat) : List PTok :=
  List.intersperse PTok.comma (args.map exprToken) ++ [PTok.semi, PTok.str name]

/-- An attribute attached to the annotated function: its path, its argument
token stream, and its span. -/
structure Attr where
  path : List Nat
  tokens : List PTok
  span : Nat
deriving DecidableEq

/-- The bare attribute path `test_case` (src/test_case.rs `parse_quote!(test_case)`). -/
def testCasePath : List Nat := ofString "test_case"

/-- The qualified attribute path `simple_test_case::test_case`. -/
def qualifiedTestCasePath : List Nat := ofString "simple_test_case::test_case"

/-- The filter of `extract_other_cases`:
`a.path == test_case_attr || a.path == qualified_test_case_attr`. -/
def isCaseAttr (a : Attr) : Bool :=
  decide (a.path = testCasePath) || decide (a.path = qualifiedTestCasePath)

/-- The compile errors the `test_case` expansion can emit (each corresponds to
one `syn::Error` constructed in src/test_case.rs / src/lib.rs). -/
inductive ExpandError where
  | invalidTestCase (span : Nat)
  | arity (span : Nat)
  | unsupportedParamAttr
  | receiverParam
deriving DecidableEq

/-- A parameter of the annotated function (`syn::FnArg`): a typed pattern with
its own attribute list, or a `self` receiver. -/
inductive FnArg where
  | typed (attrs : List Nat) (pat : List Nat) (ty : List Nat)
  | receiver
deriving DecidableEq

/-- A statement of a function body, at the granularity the macro creates them:
the synthesized `let #pat: #ty = #val;` bindings, plus opaque original
statements. -/
inductive Stmt where
  | letBind (pat : List Nat) (ty : List Nat) (val : Expr)
  | raw (n : Nat)
deriving DecidableEq

/-- The annotated function (`syn::ItemFn`), restricted to the fields the macro
reads or rewrites: attributes, name, parameters and body statements.  All other
fields (visibility, asyncness, return type, ...) are carried through the Rust
code untouched and are omitted here. -/
structure ItemFn where
  attrs : List Attr
  name : List Nat
  inputs : List FnArg
  stmts : List Stmt
deriving DecidableEq

/-- The `inputs.iter().zip(args).map(...).collect::<Result<Vec<Stmt>>>` loop of
`resolve_test_case`: one `let` binding per (parameter, argument) pair, failing
on parameter attributes or a receiver, first error wins.  The zip itself stops
at the shorter list, exactly as in Rust; the caller checks arity beforehand. -/
def mkBindings : List FnArg → List Expr → Except ExpandError (List Stmt)
  | [], _ => .ok []
  | _, [] => .ok []
  | FnArg.typed pattrs pat ty :: fs, v :: vs =>
    if pattrs = [] then
      match mkBindings fs vs with
      | .ok rest => .ok (Stmt.letBind pat ty v :: rest)
      | .error e => .error e
    else .error .unsupportedParamAttr
  | FnArg.receiver :: _, _ :: _ => .error .receiverParam

/-- Embedding of `resolve_test_case` (src/test_case.rs:88, src/lib.rs:270).
Returns `some (.error e)` when the Rust function returns
`Error::into_compile_error` tokens, `some (.ok g)` when it returns the rewritten
function, and `none` when `slugify_ident` panics in `Ident::new`. -/
def resolve_test_case (f : ItemFn) (c : TestCase) : Option (Except ExpandError ItemFn) :=
  if c.args.length ≠ f.inputs.length then some (.error (.arity c.span))
  else
    match mkBindings f.inputs c.args with
    | .error e => some (.error e)
    | .ok binds =>
      match slugify_ident c.name with
      | none => none
      | some id => some (.ok { attrs := f.attrs, name := id, inputs := [], stmts := binds ++ f.stmts })

/-- Embedding of `extract_other_cases` (src/test_case.rs:66, src/lib.rs:245):
walk the attribute list with its enumeration index, parse every attribute whose
path matches `test_case`/`simple_test_case::test_case`, and return the parsed
cases together with the indices of the matched attributes; the first parse
failure aborts with an `invalid test_case` error at that attribute's span. -/
def extract_other_cases : List Attr → Nat → Except ExpandError (List TestCase × List Nat)
  | [], _ => .ok ([], [])
  | a :: rest, ix =>
    if isCaseAttr a then
      match parseTestCase a.span a.tokens with
      | some tc =>
        match extract_other_cases rest (ix + 1) with
        | .ok (cs, ixs) => .ok (tc :: cs, ix :: ixs)
        | .error e => .error e
      | none => .error (.invalidTestCase a.span)
    else
      extract_other_cases rest (ix + 1)

/-- Models `Vec::swap_remove(i)`: the element at `i` is removed and the last
element is moved into its place. -/
def swapRemove (l : List α) (i : Nat) : List α :=
  match l.getLast? with
  | none => []
  | some b => (l.set i b).dropLast

/-- Sequencing of the per-case results inside `inner`: if any case panicked the
whole expansion panics. -/
def sequenceOpt : List (Option α) → Option (List α)
  | [] => some []
  | none :: _ => none
  | some x :: rest =>
    match sequenceOpt rest with
    | none => none
    | some xs => some (x :: xs)

deriving instance DecidableEq for Except

/-- The emitted output unit: `mod #module { use super::*; #(#resolved_cases)* }`.
Each item is either a generated test function or an embedded
`compile_error!` produced by a failed case resolution. -/
structure EmittedModule where
  name : List Nat
  items : List (Except ExpandError ItemFn)
deriving DecidableEq

/-- Embedding of the `test_case` entry point (`inner` in src/test_case.rs:31,
`test_case` in src/lib.rs:210): parse siblings, swap-remove the matched
attributes in descending index order, resolve every case against a copy of the
(stripped) original function, and wrap the results in a module named after the
original function.  `none` models a panic during expansion; `some (.error e)`
models an expansion that returns a single compile error. -/
def test_case_inner (firstCase : TestCase) (original : ItemFn) : Option (Except ExpandError EmittedModule) :=
  match extract_other_cases original.attrs 0 with
  | .error e => some (.error e)
  | .ok (others, toRemove) =>
    let attrs2 := (toRemove.reverse).foldl swapRemove original.attrs
    let stripped : ItemFn := { original with attrs := attrs2 }
    match sequenceOpt ((firstCase :: others).map (resolve_test_case stripped)) with
    | none => none
    | some items => some (.ok { name := original.name, items := items })

/-- One entry of a directory listing, at the granularity `get_cases` inspects
it: its file name and whether it is a regular file. -/
structure DirEntry where
  fname : List Nat
  isFile : Bool
deriving DecidableEq

/-- Models `format!("{}/{}", a, b)`: path join with `'/'` (47). -/
def joinPath (a b : List Nat) : List Nat := a ++ [47] ++ b

/-- The `for entry in read_dir(dir)?` loop body of `get_cases`
(src/dir_cases.rs:28): each entry may itself fail to read (`entry?`); regular
files produce the triple (relative path, absolute path, slug of the
*relative path* `dir/fname`); other entries are skipped. -/
def get_cases_entries (dir root : List Nat) :
    List (Except Nat DirEntry) → Except Nat (List (List Nat × List Nat × List Nat))
  | [] => .ok []
  | .error e :: _ => .error e
  | .ok ent :: rest =>
    match get_cases_entries dir root rest with
    | .error e => .error e
    | .ok cs =>
      .ok (if ent.isFile then
            (joinPath dir ent.fname,
             joinPath root (joinPath dir ent.fname),
             slugify_path (joinPath dir ent.fname)) :: cs
          else cs)

/-- Embedding of `get_cases` (src/dir_cases.rs:28).  The filesystem is passed
in as `fsRead`, the model of `std::fs::read_dir`: for a directory name it
yields either an I/O error or the list of entry results.  `root` models
`std::env::current_dir()`. -/
def get_cases (fsRead : List Nat → Except Nat (List (Except Nat DirEntry)))
    (root dir : List Nat) : Except Nat (List (List Nat × List Nat × List Nat)) :=
  match fsRead dir with
  | .error e => .error e
  | .ok entries => get_cases_entries dir root entries

/-- Embedding of `has_correct_args` (src/dir_cases.rs:54): exactly two
parameters, each a typed parameter of type `&str`. -/
def has_correct_args (f : ItemFn) : Bool :=
  decide (f.inputs.length = 2) &&
    f.inputs.all (fun a =>
      match a with
      | FnArg.typed _ _ ty => decide (ty = ofString "&str")
      | FnArg.receiver => false)

/-- The parsed `dir_cases` annotation argument (struct `DirCases` of
src/dir_cases.rs): its span and the list of directory paths. -/
structure DirCases where
  span : Nat
  dirs : List (List Nat)
deriving DecidableEq

/-- The compile errors the `dir_cases` expansion can emit. -/
inductive DirError where
  | sigMismatch (span : Nat)
  | loadError (span : Nat) (e : Nat)
deriving DecidableEq

/-- The `for dir in dirs.iter()` loop of the `dir_cases` entry point: collect
the cases of every directory in order, aborting on the first I/O error. -/
def collect_case_details (fsRead : List Nat → Except Nat (List (Except Nat DirEntry)))
    (root : List Nat) : List (List Nat) → Except Nat (List (List Nat × List Nat × List Nat))
  | [] => .ok []
  | d :: rest =>
    match get_cases fsRead root d with
    | .error e => .error e
    | .ok cs =>
      match collect_case_details fsRead root rest with
      | .error e => .error e
      | .ok more => .ok (cs ++ more)

/-- Embedding of the `dir_cases` entry point (`inner` in src/dir_cases.rs:61):
validate the signature, enumerate every directory, and on success emit one
generated `test_case` attribute per discovered file (modelled by its
path/absolute-path/slug triple) above the original function. -/
def dir_cases_inner (fsRead : List Nat → Except Nat (List (Except Nat DirEntry)))
    (root : List Nat) (dc : DirCases) (original : ItemFn) :
    Except DirError (List (List Nat × List Nat × List Nat) × ItemFn) :=
  if has_correct_args original then
    match collect_case_details fsRead root dc.dirs with
    | .error e => .error (.loadError dc.span e)
    | .ok details => .ok (details, original)
  else .error (.sigMismatch dc.span)

/-! ## Helper lemmas -/

/-- A character that has been lowercased and slug-mapped is a fixed point of
another lowercase-and-slug-map round. -/
lemma slugChar_lower_idem (c : Nat) :
    slugChar (toAsciiLower (slugChar (toAsciiLower c))) = slugChar (toAsciiLower c) := by
  unfold slugChar toAsciiLower isAsciiAlphanumeric
  split_ifs <;> simp_all
  omega

/-- Unfolding of `slugify_path` with its intermediate string named. -/
lemma slugify_path_eq (p : List Nat) :
    slugify_path p =
      if startsWithNumeric ((p.map toAsciiLower).map slugChar) then
        95 :: (p.map toAsciiLower).map slugChar
      else (p.map toAsciiLower).map slugChar := rfl

/-- The core map of `slugify_path` is idempotent. -/
lemma slugCore_idem (p : List Nat) :
    ((((p.map toAsciiLower).map slugChar).map toAsciiLower).map slugChar)
      = (p.map toAsciiLower).map slugChar := by
  induction p with
  | nil => rfl
  | cons c q ih =>
    simp only [List.map_cons]
    rw [slugChar_lower_idem c, ih]

/-! ## C6: sanitizer totality on non-empty input, plus the spec's examples -/

/-- C6: for every non-empty input, `slugify_path` returns a non-empty string
that does not start with a digit; and the three concrete examples from the
spec hold. -/
theorem slugify_path_nonempty_nondigit_examples :
    (∀ p : List Nat, p ≠ [] →
        slugify_path p ≠ [] ∧ startsWithNumeric (slugify_path p) = false) ∧
    slugify_path (ofString "simple example") = ofString "simple_example" ∧
    slugify_path (ofString "99 bottles of beer") = ofString "_99_bottles_of_beer" ∧
    slugify_path (ofString "some-file_path.txt") = ofString "some_file_path_txt" := by
  refine ⟨?_, by decide, by decide, by decide⟩
  intro p hp
  cases p with
  | nil => exact absurd rfl hp
  | cons c rest =>
    rw [slugify_path_eq]
    by_cases h : startsWithNumeric (((c :: rest).map toAsciiLower).map slugChar) = true
    · rw [if_pos h]
      exact ⟨by simp, by simp [startsWithNumeric, isNumericChar]⟩
    · rw [if_neg h]
      simp only [Bool.not_eq_true] at h
      exact ⟨by simp, h⟩

/-- Witness for C6 at the concrete input `"a"`. -/
theorem slugify_path_nonempty_nondigit_examples_witness :
    slugify_path (ofString "a") ≠ [] ∧
      startsWithNumeric (slugify_path (ofString "a")) = false :=
  slugify_path_nonempty_nondigit_examples.1 (ofString "a") (by decide)

/-! ## C7: sanitizer idempotence -/

/-- C7: `slugify_path` is idempotent. -/
theorem slugify_path_idempotent (p : List Nat) :
    slugify_path (slugify_path p) = slugify_path p := by
  have h95 : slugChar (toAsciiLower 95) = 95 := by decide
  by_cases h : startsWithNumeric ((p.map toAsciiLower).map slugChar) = true
  · rw [slugify_path_eq p, if_pos h, slugify_path_eq]
    simp only [List.map_cons, h95, slugCore_idem]
    rw [if_neg (by simp [startsWithNumeric, isNumericChar])]
  · rw [slugify_path_eq p, if_neg h, slugify_path_eq, slugCore_idem]
    rw [if_neg h]

/-! ## C1: arity mismatch always fails at the case's span -/

/-- C1: whenever a case's argument count differs from the function's parameter
count, `resolve_test_case` returns the `wrong number of arguments` compile
error attached to the case's own span, and no function (hence no binding
statement) is generated. -/
theorem resolve_test_case_arity_error (f : ItemFn) (c : TestCase)
    (h : c.args.length ≠ f.inputs.length) :
    resolve_test_case f c = some (Except.error (ExpandError.arity c.span)) := by
  unfold resolve_test_case
  rw [if_pos h]

/-- Witness for C1: a two-argument case against a one-parameter function. -/
theorem resolve_test_case_arity_error_witness :
    resolve_test_case
        ⟨[], ofString "f", [FnArg.typed [] (ofString "n") (ofString "usize")], [Stmt.raw 0]⟩
        ⟨5, [Expr.atom 1, Expr.atom 2], ofString "a"⟩
      = some (Except.error (ExpandError.arity 5)) :=
  resolve_test_case_arity_error _ _ (by decide)

/-! ## Identifier-sanitizer character lemmas -/

/-- The `isSome`-ness of `identNew` is identifier validity. -/
lemma identNew_isSome (s : List Nat) : (identNew s).isSome = isValidIdent s := by
  unfold identNew
  split_ifs with h <;> simp [h]

/-- First-character behaviour of lowercase-then-replace-space. -/
lemma identStart_char (c : Nat) :
    isIdentStart (replaceSpaceChar (toAsciiLower c))
      = (isAsciiAlpha c || decide (c = 32) || decide (c = 95)) := by
  unfold isIdentStart isAsciiAlpha replaceSpaceChar toAsciiLower
  split_ifs <;> simp_all

/-- Continuation-character behaviour of lowercase-then-replace-space. -/
lemma identCont_char (c : Nat) :
    isIdentContinue (replaceSpaceChar (toAsciiLower c)) = identAllowedChar c := by
  unfold isIdentContinue identAllowedChar isAsciiAlphanumeric replaceSpaceChar toAsciiLower
  split_ifs <;> simp_all

/-- A valid identifier-start character is a valid continuation character. -/
lemma identStart_imp_cont (d : Nat) (h : isIdentStart d = true) : isIdentContinue d = true := by
  unfold isIdentStart isAsciiAlpha at h
  unfold isIdentContinue isAsciiAlphanumeric
  simp_all
  omega

/-- On characters the replace-space step keeps identifier-valid, replacing the
space coincides with the full non-alphanumeric replacement of `slugify_path`. -/
lemma rep_eq_slug_of_cont (d : Nat) (h : isIdentContinue (replaceSpaceChar d) = true) :
    replaceSpaceChar d = slugChar d := by
  unfold isIdentContinue isAsciiAlphanumeric replaceSpaceChar at h
  unfold replaceSpaceChar slugChar isAsciiAlphanumeric
  split_ifs at * <;> simp_all

/-- A character yields an identifier-start character after lowering and space
replacement exactly when it is allowed and not a digit. -/
lemma start_iff_allowed_nondigit (c : Nat) :
    (isAsciiAlpha c || decide (c = 32) || decide (c = 95)) = true
      ↔ (identAllowedChar c = true ∧ isNumericChar c = false) := by
  unfold isAsciiAlpha identAllowedChar isAsciiAlphanumeric isNumericChar
  simp only [Bool.or_eq_true, decide_eq_true_eq, decide_eq_false_iff_not]
  omega

/-- Every character of a valid identifier is a valid continuation character. -/
lemma valid_all_cont (s : List Nat) (h : isValidIdent s = true) :
    s.all isIdentContinue = true := by
  cases s with
  | nil => simp
  | cons c rest =>
    unfold isValidIdent at h
    rw [Bool.and_eq_true] at h
    simp [identStart_imp_cont c h.1, h.2]

/-- When the replaced string is a valid identifier, space replacement and the
full slug map agree on it. -/
lemma map_rep_eq_map_slug (m : List Nat)
    (h : (m.map replaceSpaceChar).all isIdentContinue = true) :
    m.map replaceSpaceChar = m.map slugChar := by
  induction m with
  | nil => rfl
  | cons d m ih =>
    simp only [List.map_cons, List.all_cons, Bool.and_eq_true] at h ⊢
    rw [rep_eq_slug_of_cont d h.1, ih h.2]

/-! ## C2: generated test name is the sanitized display name -/

/-- C2: whenever a case resolves successfully, the generated function's name is
the display name lowercased with every non-ASCII-alphanumeric character
replaced by an underscore (the sanitization used by `slugify_path`).  On the
domain where `Ident::new` does not panic the spaces-only replacement of
`slugify_ident` coincides with this full sanitization. -/
theorem resolve_test_case_generated_name (f : ItemFn) (c : TestCase) (g : ItemFn)
    (h : resolve_test_case f c = some (Except.ok g)) :
    g.name = (c.name.map toAsciiLower).map slugChar := by
  unfold resolve_test_case at h
  split at h
  · simp at h
  · split at h
    · simp at h
    · rename_i binds hbinds
      cases hid : slugify_ident c.name with
      | none => rw [hid] at h; simp at h
      | some id =>
        rw [hid] at h
        simp only [Option.some.injEq, Except.ok.injEq] at h
        have hname : g.name = id := by rw [← h]
        unfold slugify_ident identNew at hid
        split_ifs at hid with hvalid
        · simp only [Option.some.injEq] at hid
          rw [hname, ← hid]
          exact map_rep_eq_map_slug _ (valid_all_cont _ hvalid)

/-- Witness for C2: resolving the case `1; "a b"` against a one-parameter
function produces a function named `a_b`. -/
theorem resolve_test_case_generated_name_witness :
    (⟨[], ofString "a_b", [],
        [Stmt.letBind (ofString "n") (ofString "usize") (Expr.atom 1), Stmt.raw 0]⟩ : ItemFn).name
      = ((ofString "a b").map toAsciiLower).map slugChar :=
  resolve_test_case_generated_name
    ⟨[], ofString "f", [FnArg.typed [] (ofString "n") (ofString "usize")], [Stmt.raw 0]⟩
    ⟨5, [Expr.atom 1], ofString "a b"⟩ _ (by decide)

/-! ## C10: partiality of the case-name renaming step -/

/-- C10 counterexample: the display name `a_b` contains an underscore, which is
neither an ASCII letter nor a digit nor a space, yet `slugify_ident` succeeds
on it — so the renaming step is not total *only* for names made of letters,
digits and spaces. -/
theorem slugify_ident_only_counterexample :
    (slugify_ident (ofString "a_b")).isSome = true ∧
    (ofString "a_b").all (fun c => isAsciiAlpha c || isAsciiDigit c || decide (c = 32))
      = false := by
  decide

/-- C10 (amended): the renaming step is total exactly for non-empty display
names made of ASCII alphanumerics, spaces and underscores that do not begin
with a digit; on other ASCII names — e.g. ones containing `-` or `.` or
beginning with a digit — `Ident::new` panics (modelled by `none`) instead of
producing a compile-time diagnostic. -/
theorem slugify_ident_totality_domain :
    (∀ s : List Nat, (∀ c ∈ s, c < 128) →
        ((slugify_ident s).isSome = true ↔
          (s ≠ [] ∧ s.all identAllowedChar = true ∧ startsWithNumeric s = false))) ∧
    slugify_ident (ofString "case-1") = none ∧
    slugify_ident (ofString "a.b") = none ∧
    slugify_ident (ofString "9 bottles") = none := by
  refine ⟨?_, by decide, by decide, by decide⟩
  intro s _hascii
  cases s with
  | nil => simp [slugify_ident, identNew, isValidIdent]
  | cons c rest =>
    unfold slugify_ident
    rw [identNew_isSome]
    simp only [List.map_cons]
    show (isIdentStart (replaceSpaceChar (toAsciiLower c)) &&
        ((rest.map toAsciiLower).map replaceSpaceChar).all isIdentContinue) = true ↔ _
    rw [Bool.and_eq_true, identStart_char, List.all_map, List.all_map]
    have hfun : ((isIdentContinue ∘ replaceSpaceChar) ∘ toAsciiLower) = identAllowedChar :=
      funext fun x => identCont_char x
    rw [hfun]
    have hne : (c :: rest : List Nat) ≠ [] := by simp
    have hstart := start_iff_allowed_nondigit c
    simp only [List.all_cons, Bool.and_eq_true, startsWithNumeric, hne, true_and]
    rw [hstart]
    tauto

/-! ## Parser lemmas for C8 -/

/-- Rendering an expression back to a token round-trips through `parseExprTok`. -/
lemma parseExprTok_exprToken (ex : Expr) : parseExprTok (exprToken ex) = some ex := by
  cases ex <;> rfl

/-- A token parses to an expression exactly when it renders that expression. -/
lemma parseExprTok_eq_some (t : PTok) (e : Expr) :
    parseExprTok t = some e ↔ t = exprToken e := by
  cases t <;> cases e <;> simp [parseExprTok, exprToken]

/-- Reduction of `parseArgs` on a stream headed by an expression token. -/
lemma parseArgs_cons_eq (t : PTok) (ex : Expr) (hpe : parseExprTok t = some ex)
    (rest : List PTok) :
    parseArgs (t :: rest) =
      match rest with
      | PTok.comma :: rest2 =>
        match parseArgs rest2 with
        | none => none
        | some (es, r) => some (ex :: es, r)
      | _ => some ([ex], rest) := by
  cases t with
  | e n =>
    simp only [parseExprTok, Option.some.injEq] at hpe
    rw [← hpe]
    cases rest with
    | nil => simp [parseArgs, parseExprTok]
    | cons t2 rest2 => cases t2 <;> simp [parseArgs, parseExprTok]
  | str s =>
    simp only [parseExprTok, Option.some.injEq] at hpe
    rw [← hpe]
    cases rest with
    | nil => simp [parseArgs, parseExprTok]
    | cons t2 rest2 => cases t2 <;> simp [parseArgs, parseExprTok]
  | comma => simp [parseExprTok] at hpe
  | semi => simp [parseExprTok] at hpe

/-- Reduction of `parseArgs` on a stream headed by a non-expression token. -/
lemma parseArgs_cons_none (t : PTok) (hpe : parseExprTok t = none) (rest : List PTok) :
    parseArgs (t :: rest) = none := by
  cases t <;> simp_all [parseExprTok, parseArgs]

/-- Soundness of the argument-list parser: a successful parse consumed a
non-empty comma-separated rendering of the returned expressions. -/
lemma parseArgs_sound (es : List Expr) : ∀ (toks r : List PTok),
    parseArgs toks = some (es, r) →
    es ≠ [] ∧ toks = List.intersperse PTok.comma (es.map exprToken) ++ r := by
  induction es with
  | nil =>
    intro toks r h
    exfalso
    cases toks with
    | nil => simp [parseArgs] at h
    | cons t rest =>
      cases hpe : parseExprTok t with
      | none => rw [parseArgs_cons_none t hpe] at h; simp at h
      | some ex =>
        rw [parseArgs_cons_eq t ex hpe rest] at h
        split at h
        · rename_i rest2
          cases hpa : parseArgs rest2 with
          | none => rw [hpa] at h; simp at h
          | some p => obtain ⟨es2, r2⟩ := p; rw [hpa] at h; simp at h
        · simp at h
  | cons ex0 es' ih =>
    intro toks r h
    cases toks with
    | nil => simp [parseArgs] at h
    | cons t rest =>
      cases hpe : parseExprTok t with
      | none => rw [parseArgs_cons_none t hpe] at h; simp at h
      | some ex =>
        have ht : t = exprToken ex := (parseExprTok_eq_some t ex).mp hpe
        rw [parseArgs_cons_eq t ex hpe rest] at h
        split at h
        · rename_i rest2
          cases hpa : parseArgs rest2 with
          | none => rw [hpa] at h; simp at h
          | some p =>
            obtain ⟨es2, r2⟩ := p
            rw [hpa] at h
            simp only [Option.some.injEq, Prod.mk.injEq, List.cons.injEq] at h
            obtain ⟨⟨hex, hes⟩, hr⟩ := h
            cases hex
            cases hes
            cases hr
            obtain ⟨hne', hrest2⟩ := ih rest2 r hpa
            refine ⟨by simp, ?_⟩
            cases es' with
            | nil => exact absurd rfl hne'
            | cons ex2 es'' =>
              simp only [List.map_cons, List.intersperse_cons_cons]
              rw [ht, hrest2]
              simp
        · rename_i hnc
          simp only [Option.some.injEq, Prod.mk.injEq] at h
          obtain ⟨h1, h2⟩ := h
          cases h1
          cases h2
          exact ⟨by simp, by simp [ht, List.intersperse_singleton]⟩

/-- Completeness of the argument-list parser: a well-formed comma-separated
argument rendering followed by a remainder that does not begin with a comma
parses to exactly those arguments with that remainder. -/
lemma parseArgs_complete (es : List Expr) : ∀ (r : List PTok), es ≠ [] →
    r.head? ≠ some PTok.comma →
    parseArgs (List.intersperse PTok.comma (es.map exprToken) ++ r) = some (es, r) := by
  induction es with
  | nil => intro r hne _; exact absurd rfl hne
  | cons ex es' ih =>
    intro r _ hr
    cases es' with
    | nil =>
      simp only [List.map_cons, List.map_nil, List.intersperse_singleton, List.cons_append,
        List.nil_append]
      rw [parseArgs_cons_eq (exprToken ex) ex (parseExprTok_exprToken ex) r]
      cases r with
      | nil => rfl
      | cons t rest =>
        cases t with
        | comma =>
          exact absurd (rfl : (PTok.comma :: rest).head? = some PTok.comma) hr
        | e n => rfl
        | semi => rfl
        | str s => rfl
    | cons ex2 es'' =>
      simp only [List.map_cons, List.intersperse_cons_cons, List.cons_append]
      rw [parseArgs_cons_eq (exprToken ex) ex (parseExprTok_exprToken ex)]
      show (match parseArgs (List.intersperse PTok.comma
              ((ex2 :: es'').map exprToken) ++ r) with
            | none => none
            | some (es, r2) => some (ex :: es, r2)) = _
      rw [ih r (by simp) hr]

/-! ## C8: the case-specification grammar -/

/-- C8: `TestCase` parsing (as invoked by the macro, which also requires the
whole stream to be consumed) succeeds precisely on token streams of the form
`expr (',' expr)* ';' string_literal` — so an empty argument list, positional
junk, a missing semicolon or a missing trailing string literal all fail with a
parse error. -/
theorem parse_test_case_grammar (sp : Nat) (toks : List PTok) (tc : TestCase) :
    parseTestCase sp toks = some tc ↔
      (tc.args ≠ [] ∧ tc.span = sp ∧ toks = caseTokens tc.args tc.name) := by
  constructor
  · intro h
    unfold parseTestCase at h
    split at h
    · simp at h
    · rename_i args s rest hpa
      split at h
      · rename_i hrest
        simp only [Option.some.injEq] at h
        obtain ⟨hne, htoks⟩ := parseArgs_sound args toks _ hpa
        cases h
        cases hrest
        exact ⟨hne, rfl, by simpa [caseTokens] using htoks⟩
      · simp at h
    · simp at h
  · rintro ⟨hne, hsp, htoks⟩
    obtain ⟨sp', args, name⟩ := tc
    simp only at hne hsp htoks
    cases hsp
    cases htoks
    unfold parseTestCase caseTokens
    rw [parseArgs_complete args [PTok.semi, PTok.str name] hne (by simp)]
    simp

/-- Witness for C8: the stream `e1 ',' e2 ';' "n"` parses to the expected
case, via the grammar theorem. -/
theorem parse_test_case_grammar_witness :
    parseTestCase 7 [PTok.e 1, PTok.comma, PTok.e 2, PTok.semi, PTok.str (ofString "n")]
      = some ⟨7, [Expr.atom 1, Expr.atom 2], ofString "n"⟩ :=
  (parse_test_case_grammar 7 _ _).mpr ⟨by decide, rfl, by decide⟩

/-! ## Directory-case lemmas -/

/-- Shape of every triple produced by the entry loop of `get_cases`: the
relative path is the directory joined with a file name, and the slug is the
sanitization of that full joined path. -/
lemma get_cases_entries_slug (dir root : List Nat) :
    ∀ (entries : List (Except Nat DirEntry)) (cs : List (List Nat × List Nat × List Nat)),
      get_cases_entries dir root entries = .ok cs →
      ∀ t ∈ cs, ∃ fname,
        t.1 = joinPath dir fname ∧
        t.2.1 = joinPath root (joinPath dir fname) ∧
        t.2.2 = slugify_path (joinPath dir fname) := by
  intro entries
  induction entries with
  | nil =>
    intro cs h t ht
    simp only [get_cases_entries, Except.ok.injEq] at h
    subst h
    simp at ht
  | cons ent rest ih =>
    intro cs h t ht
    cases ent with
    | error e => simp [get_cases_entries] at h
    | ok en =>
      unfold get_cases_entries at h
      cases hrec : get_cases_entries dir root rest with
      | error e => rw [hrec] at h; simp at h
      | ok cs' =>
        rw [hrec] at h
        simp only [Except.ok.injEq] at h
        subst h
        by_cases hf : en.isFile = true
        · rw [if_pos hf] at ht
          rcases List.mem_cons.mp ht with h1 | h2
          · exact ⟨en.fname, by simp [h1]⟩
          · exact ih cs' hrec t h2
        · rw [if_neg hf] at ht
          exact ih cs' hrec t ht

/-! ## C4: the generated slug sanitizes the full joined path, not the leaf -/

/-- C4 counterexample: for directory `d` containing the single regular file
`a.txt`, the produced slug is `d_a_txt` — the sanitization of the joined
relative path `d/a.txt` — which differs from the sanitization `a_txt` of
the leaf file name alone. -/
theorem dir_case_slug_counterexample :
    get_cases
        (fun p => if p = ofString "d" then .ok [.ok ⟨ofString "a.txt", true⟩] else .error 0)
        (ofString "root") (ofString "d")
      = .ok [(ofString "d/a.txt", ofString "root/d/a.txt", ofString "d_a_txt")] ∧
    ofString "d_a_txt" ≠ slugify_path (ofString "a.txt") := by
  decide

/-- C4 (amended): for every regular file discovered by `get_cases`, the
relative-path entry is the directory path joined with the file name, and the
slug is the sanitization of that full joined relative path (not of the leaf
name alone). -/
theorem dir_case_slug_full_path (fsRead : List Nat → Except Nat (List (Except Nat DirEntry)))
    (root dir : List Nat) (cs : List (List Nat × List Nat × List Nat))
    (h : get_cases fsRead root dir = .ok cs) :
    ∀ t ∈ cs, ∃ fname,
      t.1 = joinPath dir fname ∧
      t.2.1 = joinPath root (joinPath dir fname) ∧
      t.2.2 = slugify_path (joinPath dir fname) := by
  unfold get_cases at h
  cases hfs : fsRead dir with
  | error e => rw [hfs] at h; simp at h
  | ok entries =>
    rw [hfs] at h
    exact get_cases_entries_slug dir root entries cs h

/-- Witness for C4 (amended) at a one-file directory. -/
theorem dir_case_slug_full_path_witness :
    ∃ fname,
      (ofString "d/a.txt", ofString "root/d/a.txt", ofString "d_a_txt").1
          = joinPath (ofString "d") fname ∧
        (ofString "d/a.txt", ofString "root/d/a.txt", ofString "d_a_txt").2.1
          = joinPath (ofString "root") (joinPath (ofString "d") fname) ∧
        (ofString "d/a.txt", ofString "root/d/a.txt", ofString "d_a_txt").2.2
          = slugify_path (joinPath (ofString "d") fname) :=
  dir_case_slug_full_path
    (fun p => if p = ofString "d" then .ok [.ok ⟨ofString "a.txt", true⟩] else .error 0)
    (ofString "root") (ofString "d")
    [(ofString "d/a.txt", ofString "root/d/a.txt", ofString "d_a_txt")] (by decide)
    (ofString "d/a.txt", ofString "root/d/a.txt", ofString "d_a_txt") (by decide)

/-! ## C9: an I/O failure aborts the whole dir_cases expansion -/

/-- An I/O failure for any listed directory makes the whole collection loop
fail. -/
lemma collect_case_details_error
    (fsRead : List Nat → Except Nat (List (Except Nat DirEntry))) (root : List Nat) :
    ∀ (dirs : List (List Nat)) (d : List Nat) (e : Nat), d ∈ dirs →
      get_cases fsRead root d = .error e →
      ∃ e2, collect_case_details fsRead root dirs = .error e2 := by
  intro dirs
  induction dirs with
  | nil => intro d e hd _; simp at hd
  | cons d0 rest ih =>
    intro d e hd he
    unfold collect_case_details
    cases hg : get_cases fsRead root d0 with
    | error e0 => exact ⟨e0, rfl⟩
    | ok cs =>
      rcases List.mem_cons.mp hd with h1 | h2
      · subst h1
        rw [he] at hg
        cases hg
      · obtain ⟨e2, hrec⟩ := ih d e h2 he
        rw [hrec]
        exact ⟨e2, rfl⟩

/-- C9: if reading any of the listed directories (or any of its entries) fails
with an I/O error, the whole `dir_cases` expansion fails with a single error
and emits no generated case attributes at all — cases already enumerated from
earlier directories are discarded. -/
theorem dir_cases_io_error_fatal
    (fsRead : List Nat → Except Nat (List (Except Nat DirEntry))) (root : List Nat)
    (dc : DirCases) (original : ItemFn) (d : List Nat) (e : Nat)
    (hd : d ∈ dc.dirs) (he : get_cases fsRead root d = .error e) :
    ∃ e2, dir_cases_inner fsRead root dc original = .error e2 := by
  unfold dir_cases_inner
  by_cases hargs : has_correct_args original = true
  · rw [if_pos hargs]
    obtain ⟨e2, h2⟩ := collect_case_details_error fsRead root dc.dirs d e hd he
    rw [h2]
    exact ⟨.loadError dc.span e2, rfl⟩
  · rw [if_neg hargs]
    exact ⟨.sigMismatch dc.span, rfl⟩

/-- Witness for C9: the first directory enumerates successfully, the second
fails; the whole expansion is an error. -/
theorem dir_cases_io_error_fatal_witness :
    ∃ e2, dir_cases_inner
        (fun p => if p = ofString "bad" then Except.error 3
                  else Except.ok [Except.ok ⟨ofString "a.txt", true⟩])
        (ofString "root") ⟨9, [ofString "good", ofString "bad"]⟩
        ⟨[], ofString "f",
          [FnArg.typed [] (ofString "p") (ofString "&str"),
           FnArg.typed [] (ofString "c") (ofString "&str")], []⟩
      = Except.error e2 :=
  dir_cases_io_error_fatal _ _ _ _ (ofString "bad") 3 (by decide) (by decide)

/-! ## Resolution and sequencing structure lemmas -/

/-- Structure of a successfully resolved case: attributes are passed through
from the (stripped) original and the parameter list is cleared. -/
lemma resolve_ok_struct (f : ItemFn) (c : TestCase) (g : ItemFn)
    (h : resolve_test_case f c = some (Except.ok g)) :
    g.attrs = f.attrs ∧ g.inputs = [] := by
  unfold resolve_test_case at h
  split at h
  · simp at h
  · split at h
    · simp at h
    · cases hid : slugify_ident c.name with
      | none => rw [hid] at h; simp at h
      | some id =>
        rw [hid] at h
        simp only [Option.some.injEq, Except.ok.injEq] at h
        cases h
        exact ⟨rfl, rfl⟩

/-- Sequencing preserves length. -/
lemma sequenceOpt_length : ∀ (l : List (Option α)) (xs : List α),
    sequenceOpt l = some xs → xs.length = l.length := by
  intro l
  induction l with
  | nil => intro xs h; simp only [sequenceOpt, Option.some.injEq] at h; subst h; rfl
  | cons o rest ih =>
    intro xs h
    cases o with
    | none => simp [sequenceOpt] at h
    | some x =>
      unfold sequenceOpt at h
      cases hrec : sequenceOpt rest with
      | none => rw [hrec] at h; simp at h
      | some ys =>
        rw [hrec] at h
        simp only [Option.some.injEq] at h
        subst h
        simp [ih ys hrec]

/-- Every element of a sequenced map comes from applying the function to some
element of the source list. -/
lemma sequenceOpt_map_mem (f : β → Option α) : ∀ (l : List β) (xs : List α),
    sequenceOpt (l.map f) = some xs →
    ∀ x ∈ xs, ∃ b ∈ l, f b = some x := by
  intro l
  induction l with
  | nil =>
    intro xs h x hx
    simp only [List.map_nil, sequenceOpt, Option.some.injEq] at h
    subst h
    simp at hx
  | cons b rest ih =>
    intro xs h x hx
    simp only [List.map_cons] at h
    cases hfb : f b with
    | none => rw [hfb] at h; simp [sequenceOpt] at h
    | some y =>
      rw [hfb] at h
      unfold sequenceOpt at h
      cases hrec : sequenceOpt (rest.map f) with
      | none => rw [hrec] at h; simp at h
      | some ys =>
        rw [hrec] at h
        simp only [Option.some.injEq] at h
        subst h
        rcases List.mem_cons.mp hx with h1 | h2
        · exact ⟨b, by simp, by rw [hfb, h1]⟩
        · obtain ⟨b2, hb2, hfb2⟩ := ih ys hrec x h2
          exact ⟨b2, by simp [hb2], hfb2⟩

/-- Zeta-reduced unfolding of the `test_case` entry point. -/
lemma test_case_inner_eq (fc : TestCase) (orig : ItemFn) :
    test_case_inner fc orig =
      match extract_other_cases orig.attrs 0 with
      | .error e => some (.error e)
      | .ok (others, toRemove) =>
        match sequenceOpt ((fc :: others).map (resolve_test_case
            { orig with attrs := (toRemove.reverse).foldl swapRemove orig.attrs })) with
        | none => none
        | some items => some (.ok { name := orig.name, items := items }) := rfl

/-! ## C5: the emitted module structure and case order -/

/-- C5: a successful expansion emits a single module named after the original
function whose items are exactly the resolutions of the primary case followed
by the sibling cases in their top-to-bottom attribute order (one item per
declared case, and every successfully generated function has zero
parameters). -/
theorem test_case_module_structure (fc : TestCase) (orig : ItemFn) (m : EmittedModule)
    (h : test_case_inner fc orig = some (Except.ok m)) :
    m.name = orig.name ∧
    ∃ others ixs,
      extract_other_cases orig.attrs 0 = .ok (others, ixs) ∧
      sequenceOpt ((fc :: others).map (resolve_test_case
        { orig with attrs := (ixs.reverse).foldl swapRemove orig.attrs })) = some m.items ∧
      m.items.length = (fc :: others).length ∧
      ∀ g : ItemFn, Except.ok g ∈ m.items → g.inputs = [] := by
  rw [test_case_inner_eq] at h
  split at h
  · simp at h
  · rename_i others ixs heq
    split at h
    · simp at h
    · rename_i items hseq
      simp only [Option.some.injEq, Except.ok.injEq] at h
      subst h
      refine ⟨rfl, others, ixs, heq, hseq, ?_, ?_⟩
      · rw [sequenceOpt_length _ _ hseq]
        simp
      · intro g hg
        obtain ⟨c, _, hres⟩ := sequenceOpt_map_mem _ _ _ hseq (Except.ok g) hg
        exact (resolve_ok_struct _ _ _ hres).2

/-- Witness for C5: one primary case and one sibling case attribute expand to
a module with two generated functions in declaration order. -/
theorem test_case_module_structure_witness :
    (⟨ofString "f",
      [Except.ok ⟨[], ofString "a", [],
         [Stmt.letBind (ofString "n") (ofString "usize") (Expr.atom 1), Stmt.raw 0]⟩,
       Except.ok ⟨[], ofString "b", [],
         [Stmt.letBind (ofString "n") (ofString "usize") (Expr.atom 0), Stmt.raw 0]⟩]⟩
        : EmittedModule).name
      = (⟨[⟨testCasePath, [PTok.e 0, PTok.semi, PTok.str (ofString "b")], 10⟩],
          ofString "f", [FnArg.typed [] (ofString "n") (ofString "usize")],
          [Stmt.raw 0]⟩ : ItemFn).name ∧
    ∃ others ixs,
      extract_other_cases (⟨[⟨testCasePath, [PTok.e 0, PTok.semi, PTok.str (ofString "b")], 10⟩],
          ofString "f", [FnArg.typed [] (ofString "n") (ofString "usize")],
          [Stmt.raw 0]⟩ : ItemFn).attrs 0 = .ok (others, ixs) ∧
      sequenceOpt (((⟨5, [Expr.atom 1], ofString "a"⟩ : TestCase) :: others).map
        (resolve_test_case
          { (⟨[⟨testCasePath, [PTok.e 0, PTok.semi, PTok.str (ofString "b")], 10⟩],
              ofString "f", [FnArg.typed [] (ofString "n") (ofString "usize")],
              [Stmt.raw 0]⟩ : ItemFn) with
            attrs := (ixs.reverse).foldl swapRemove
              (⟨[⟨testCasePath, [PTok.e 0, PTok.semi, PTok.str (ofString "b")], 10⟩],
                ofString "f", [FnArg.typed [] (ofString "n") (ofString "usize")],
                [Stmt.raw 0]⟩ : ItemFn).attrs }))
        = some (⟨ofString "f",
            [Except.ok ⟨[], ofString "a", [],
               [Stmt.letBind (ofString "n") (ofString "usize") (Expr.atom 1), Stmt.raw 0]⟩,
             Except.ok ⟨[], ofString "b", [],
               [Stmt.letBind (ofString "n") (ofString "usize") (Expr.atom 0), Stmt.raw 0]⟩]⟩
              : EmittedModule).items ∧
      (⟨ofString "f",
        [Except.ok ⟨[], ofString "a", [],
           [Stmt.letBind (ofString "n") (ofString "usize") (Expr.atom 1), Stmt.raw 0]⟩,
         Except.ok ⟨[], ofString "b", [],
           [Stmt.letBind (ofString "n") (ofString "usize") (Expr.atom 0), Stmt.raw 0]⟩]⟩
          : EmittedModule).items.length
        = (((⟨5, [Expr.atom 1], ofString "a"⟩ : TestCase)) :: others).length ∧
      ∀ g : ItemFn,
        Except.ok g ∈ (⟨ofString "f",
          [Except.ok ⟨[], ofString "a", [],
             [Stmt.letBind (ofString "n") (ofString "usize") (Expr.atom 1), Stmt.raw 0]⟩,
           Except.ok ⟨[], ofString "b", [],
             [Stmt.letBind (ofString "n") (ofString "usize") (Expr.atom 0), Stmt.raw 0]⟩]⟩
            : EmittedModule).items → g.inputs = [] :=
  test_case_module_structure ⟨5, [Expr.atom 1], ofString "a"⟩
    ⟨[⟨testCasePath, [PTok.e 0, PTok.semi, PTok.str (ofString "b")], 10⟩],
      ofString "f", [FnArg.typed [] (ofString "n") (ofString "usize")], [Stmt.raw 0]⟩
    _ (by decide)

/-! ## swap_remove lemmas for C3 -/

/-- Length behaviour of `swap_remove`. -/
lemma swapRemove_length (l : List α) (i : Nat) (h : i < l.length) :
    (swapRemove l i).length = l.length - 1 := by
  rcases List.eq_nil_or_concat l with rfl | ⟨l2, b, rfl⟩
  · simp at h
  · unfold swapRemove
    rw [List.concat_eq_append, List.getLast?_concat]
    simp

/-- A `swap_remove` at a positive index leaves the head untouched. -/
lemma swapRemove_cons_succ (a : α) (l : List α) (j : Nat) (h1 : 1 ≤ j) (h2 : j ≤ l.length) :
    swapRemove (a :: l) j = a :: swapRemove l (j - 1) := by
  obtain ⟨j2, rfl⟩ : ∃ j2, j = j2 + 1 := ⟨j - 1, by omega⟩
  rcases List.eq_nil_or_concat l with rfl | ⟨l2, b, rfl⟩
  · simp at h2
  · rw [List.concat_eq_append]
    have hg1 : (a :: (l2 ++ [b])).getLast? = some b := by
      rw [show a :: (l2 ++ [b]) = (a :: l2) ++ [b] by simp, List.getLast?_concat]
    simp only [swapRemove, hg1, List.getLast?_concat]
    rw [List.set_cons_succ, Nat.add_sub_cancel]
    have hne2 : (l2 ++ [b]).set j2 b ≠ [] := by
      intro hx
      have hlen := congrArg List.length hx
      simp at hlen
    cases hy : (l2 ++ [b]).set j2 b with
    | nil => exact absurd hy hne2
    | cons y ys => rfl

/-- A `swap_remove` at index 0 is, up to permutation, removal of the head. -/
lemma swapRemove_cons_zero_perm (a : α) (l : List α) : (swapRemove (a :: l) 0).Perm l := by
  rcases List.eq_nil_or_concat l with rfl | ⟨l2, b, rfl⟩
  · show List.Perm [] []
    rfl
  · rw [List.concat_eq_append]
    have hg1 : (a :: (l2 ++ [b])).getLast? = some b := by
      rw [show a :: (l2 ++ [b]) = (a :: l2) ++ [b] by simp, List.getLast?_concat]
    simp only [swapRemove, hg1, List.set_cons_zero]
    rw [List.dropLast_cons_of_ne_nil (by simp), List.dropLast_concat]
    exact (List.perm_append_singleton b l2).symm

/-- Folding `swap_remove` over strictly descending positive in-range indices
leaves the head in place and acts on the tail with the shifted indices. -/
lemma foldl_swapRemove_cons (a : α) : ∀ (js : List Nat) (l : List α),
    List.Pairwise (· > ·) js → (∀ j ∈ js, 1 ≤ j ∧ j ≤ l.length) →
    List.foldl swapRemove (a :: l) js
      = a :: List.foldl swapRemove l (js.map (· - 1)) := by
  intro js
  induction js with
  | nil => intro l _ _; rfl
  | cons j js2 ih =>
    intro l hp hb
    obtain ⟨hj1, hj2⟩ := hb j (by simp)
    simp only [List.foldl_cons, List.map_cons]
    rw [swapRemove_cons_succ a l j hj1 hj2]
    apply ih
    · exact hp.of_cons
    · intro i hi
      have hgt : j > i := (List.pairwise_cons.mp hp).1 i hi
      have hbi := hb i (by simp [hi])
      have hlen : (swapRemove l (j - 1)).length = l.length - 1 :=
        swapRemove_length l (j - 1) (by omega)
      exact ⟨hbi.1, by rw [hlen]; omega⟩

/-! ## extract_other_cases index lemmas -/

/-- Starting the enumeration one position later shifts every returned index by
one. -/
lemma extract_shift : ∀ (attrs : List Attr) (k : Nat),
    extract_other_cases attrs (k + 1)
      = (extract_other_cases attrs k).map (fun p => (p.1, p.2.map (· + 1))) := by
  intro attrs
  induction attrs with
  | nil => intro k; rfl
  | cons a rest ih =>
    intro k
    unfold extract_other_cases
    by_cases hca : isCaseAttr a = true
    · rw [if_pos hca, if_pos hca]
      cases hp : parseTestCase a.span a.tokens with
      | none => rfl
      | some tc =>
        rw [ih (k + 1), ih k]
        cases hrec : extract_other_cases rest k with
        | error e => rfl
        | ok p => obtain ⟨cs0, ixs0⟩ := p; simp [Except.map, List.map_map]
    · rw [if_neg hca, if_neg hca]
      exact ih (k + 1)

/-- Every index returned by `extract_other_cases` lies in the enumerated
range. -/
lemma extract_bounds : ∀ (attrs : List Attr) (k : Nat) (cs : List TestCase) (ixs : List Nat),
    extract_other_cases attrs k = .ok (cs, ixs) →
    ∀ i ∈ ixs, k ≤ i ∧ i < k + attrs.length := by
  intro attrs
  induction attrs with
  | nil =>
    intro k cs ixs h i hi
    simp only [extract_other_cases, Except.ok.injEq, Prod.mk.injEq] at h
    obtain ⟨_, h2⟩ := h
    subst h2
    simp at hi
  | cons a rest ih =>
    intro k cs ixs h i hi
    unfold extract_other_cases at h
    split at h
    · split at h
      · rename_i tc hp
        split at h
        · rename_i p cs2 ixs2 hrec
          simp only [Except.ok.injEq, Prod.mk.injEq] at h
          obtain ⟨h1, h2⟩ := h
          subst h1
          subst h2
          rcases List.mem_cons.mp hi with rfl | hmem
          · exact ⟨Nat.le_refl _, by simp⟩
          · obtain ⟨ha, hb⟩ := ih (k + 1) cs2 ixs2 hrec i hmem
            exact ⟨by omega, by simp only [List.length_cons]; omega⟩
        · simp at h
      · simp at h
    · obtain ⟨ha, hb⟩ := ih (k + 1) cs ixs h i hi
      exact ⟨by omega, by simp only [List.length_cons]; omega⟩

/-- The indices returned by `extract_other_cases` are strictly increasing. -/
lemma extract_sorted : ∀ (attrs : List Attr) (k : Nat) (cs : List TestCase) (ixs : List Nat),
    extract_other_cases attrs k = .ok (cs, ixs) → List.Pairwise (· < ·) ixs := by
  intro attrs
  induction attrs with
  | nil =>
    intro k cs ixs h
    simp only [extract_other_cases, Except.ok.injEq, Prod.mk.injEq] at h
    obtain ⟨_, h2⟩ := h
    subst h2
    exact List.Pairwise.nil
  | cons a rest ih =>
    intro k cs ixs h
    unfold extract_other_cases at h
    split at h
    · split at h
      · rename_i tc hp
        split at h
        · rename_i p cs2 ixs2 hrec
          simp only [Except.ok.injEq, Prod.mk.injEq] at h
          obtain ⟨h1, h2⟩ := h
          subst h1
          subst h2
          refine List.pairwise_cons.mpr ⟨?_, ih (k + 1) cs2 ixs2 hrec⟩
          intro i hi
          have := (extract_bounds rest (k + 1) cs2 ixs2 hrec i hi).1
          omega
        · simp at h
      · simp at h
    · exact ih (k + 1) cs ixs h

/-! ## The attribute-removal permutation lemma -/

/-- Removing the matched case attributes by descending-index `swap_remove`
yields, up to permutation, exactly the non-case attributes. -/
lemma extract_fold_perm : ∀ (attrs : List Attr) (cs : List TestCase) (ixs : List Nat),
    extract_other_cases attrs 0 = .ok (cs, ixs) →
    ((ixs.reverse).foldl swapRemove attrs).Perm
      (attrs.filter (fun x => !(isCaseAttr x))) := by
  intro attrs
  induction attrs with
  | nil =>
    intro cs ixs h
    simp only [extract_other_cases, Except.ok.injEq, Prod.mk.injEq] at h
    obtain ⟨_, h2⟩ := h
    subst h2
    simp only [List.reverse_nil, List.foldl_nil, List.filter_nil]
    exact List.Perm.refl []
  | cons a rest ih =>
    intro cs ixs h
    unfold extract_other_cases at h
    split at h
    · rename_i hca
      split at h
      · rename_i tc hp
        split at h
        · rename_i p cs2 ixs2 hrec
          simp only [Except.ok.injEq, Prod.mk.injEq] at h
          obtain ⟨h1, h2⟩ := h
          subst h1
          subst h2
          rw [extract_shift rest 0] at hrec
          cases hrec0 : extract_other_cases rest 0 with
          | error e => rw [hrec0] at hrec; simp [Except.map] at hrec
          | ok p0 =>
            obtain ⟨cs0, ixs0⟩ := p0
            rw [hrec0] at hrec
            simp only [Except.map, Except.ok.injEq, Prod.mk.injEq] at hrec
            obtain ⟨hcs0, hixs0⟩ := hrec
            subst hcs0
            subst hixs0
            have hsort : List.Pairwise (· < ·) ixs0 := extract_sorted rest 0 cs0 ixs0 hrec0
            have hbnd := extract_bounds rest 0 cs0 ixs0 hrec0
            have hpair : List.Pairwise (· > ·) (ixs0.reverse.map (· + 1)) := by
              apply List.pairwise_map.mpr
              apply List.pairwise_reverse.mpr
              exact hsort.imp (by omega)
            have hbound : ∀ j ∈ ixs0.reverse.map (· + 1), 1 ≤ j ∧ j ≤ rest.length := by
              intro j hj
              simp only [List.mem_map, List.mem_reverse] at hj
              obtain ⟨i, hi, rfl⟩ := hj
              have := hbnd i hi
              omega
            rw [List.reverse_cons, List.foldl_append, ← List.map_reverse,
              foldl_swapRemove_cons a _ rest hpair hbound]
            simp only [List.map_map]
            have hid : ∀ l : List Nat, l.map ((fun j => j - 1) ∘ fun j => j + 1) = l := by
              intro l
              induction l with
              | nil => rfl
              | cons x xs ihx => simp [ihx]
            rw [hid]
            have hfil : (a :: rest).filter (fun x => !(isCaseAttr x))
                = rest.filter (fun x => !(isCaseAttr x)) := by
              simp [List.filter_cons, hca]
            rw [hfil]
            simp only [List.foldl_cons, List.foldl_nil]
            exact (swapRemove_cons_zero_perm a _).trans (ih cs0 ixs0 hrec0)
        · simp at h
      · simp at h
    · rename_i hca
      rw [extract_shift rest 0] at h
      cases hrec0 : extract_other_cases rest 0 with
      | error e => rw [hrec0] at h; simp [Except.map] at h
      | ok p0 =>
        obtain ⟨cs0, ixs0⟩ := p0
        rw [hrec0] at h
        simp only [Except.map, Except.ok.injEq, Prod.mk.injEq] at h
        obtain ⟨hcs0, hixs0⟩ := h
        subst hcs0
        subst hixs0
        have hsort : List.Pairwise (· < ·) ixs0 := extract_sorted rest 0 cs0 ixs0 hrec0
        have hbnd := extract_bounds rest 0 cs0 ixs0 hrec0
        have hpair : List.Pairwise (· > ·) (ixs0.reverse.map (· + 1)) := by
          apply List.pairwise_map.mpr
          apply List.pairwise_reverse.mpr
          exact hsort.imp (by omega)
        have hbound : ∀ j ∈ ixs0.reverse.map (· + 1), 1 ≤ j ∧ j ≤ rest.length := by
          intro j hj
          simp only [List.mem_map, List.mem_reverse] at hj
          obtain ⟨i, hi, rfl⟩ := hj
          have := hbnd i hi
          omega
        rw [← List.map_reverse, foldl_swapRemove_cons a _ rest hpair hbound]
        simp only [List.map_map]
        have hid : ∀ l : List Nat, l.map ((fun j => j - 1) ∘ fun j => j + 1) = l := by
          intro l
          induction l with
          | nil => rfl
          | cons x xs ihx => simp [ihx]
        rw [hid]
        have hca2 : isCaseAttr a = false := by
          cases hval : isCaseAttr a with
          | false => rfl
          | true => exact absurd hval hca
        have hfil : (a :: rest).filter (fun x => !(isCaseAttr x))
            = a :: rest.filter (fun x => !(isCaseAttr x)) := by
          simp [List.filter_cons, hca2]
        rw [hfil]
        exact (ih cs0 ixs0 hrec0).cons a

/-! ## C3: attribute passthrough -/

/-- C3 counterexample: with one sibling case attribute followed by `#[test]`
and `#[should_panic]`, the expansion succeeds but every generated function
carries the remaining attributes as `[should_panic, test]` — the reverse of
their original relative order `[test, should_panic]` — because removal uses
`swap_remove`.  So the remaining attributes are not kept in their original
relative order. -/
theorem attr_order_counterexample :
    test_case_inner ⟨5, [Expr.atom 1], ofString "a"⟩
        ⟨[⟨testCasePath, [PTok.e 0, PTok.semi, PTok.str (ofString "b")], 10⟩,
          ⟨ofString "test", [], 11⟩, ⟨ofString "should_panic", [], 12⟩], ofString "f",
         [FnArg.typed [] (ofString "n") (ofString "usize")], [Stmt.raw 0]⟩
      = some (Except.ok ⟨ofString "f",
          [Except.ok ⟨[⟨ofString "should_panic", [], 12⟩, ⟨ofString "test", [], 11⟩],
             ofString "a", [],
             [Stmt.letBind (ofString "n") (ofString "usize") (Expr.atom 1), Stmt.raw 0]⟩,
           Except.ok ⟨[⟨ofString "should_panic", [], 12⟩, ⟨ofString "test", [], 11⟩],
             ofString "b", [],
             [Stmt.letBind (ofString "n") (ofString "usize") (Expr.atom 0), Stmt.raw 0]⟩]⟩) ∧
    List.filter (fun x => !(isCaseAttr x))
        [⟨testCasePath, [PTok.e 0, PTok.semi, PTok.str (ofString "b")], 10⟩,
         ⟨ofString "test", [], 11⟩, ⟨ofString "should_panic", [], 12⟩]
      = [⟨ofString "test", [], 11⟩, ⟨ofString "should_panic", [], 12⟩] ∧
    ([⟨ofString "should_panic", [], 12⟩, ⟨ofString "test", [], 11⟩] : List Attr)
      ≠ [⟨ofString "test", [], 11⟩, ⟨ofString "should_panic", [], 12⟩] := by
  decide

/-- C3 (amended): every generated test function carries exactly the original
function's non-case-declaration attributes — none lost, none gained,
byte-for-byte values — but only as a multiset: `swap_remove` removal may
permute the surviving attributes rather than keep their original relative
order. -/
theorem attr_passthrough_perm (fc : TestCase) (orig : ItemFn) (m : EmittedModule)
    (g : ItemFn) (h : test_case_inner fc orig = some (Except.ok m))
    (hg : Except.ok g ∈ m.items) :
    g.attrs.Perm (orig.attrs.filter (fun x => !(isCaseAttr x))) := by
  rw [test_case_inner_eq] at h
  split at h
  · simp at h
  · rename_i others ixs heq
    split at h
    · simp at h
    · rename_i items hseq
      simp only [Option.some.injEq, Except.ok.injEq] at h
      subst h
      obtain ⟨c, _, hres⟩ := sequenceOpt_map_mem _ _ _ hseq (Except.ok g) hg
      have hattrs := (resolve_ok_struct _ _ _ hres).1
      rw [hattrs]
      exact extract_fold_perm orig.attrs others ixs heq

/-- Witness for C3 (amended): the first generated function of the
counterexample input carries a permutation of the original non-case
attributes. -/
theorem attr_passthrough_perm_witness :
    (⟨[⟨ofString "should_panic", [], 12⟩, ⟨ofString "test", [], 11⟩], ofString "a", [],
        [Stmt.letBind (ofString "n") (ofString "usize") (Expr.atom 1), Stmt.raw 0]⟩
      : ItemFn).attrs.Perm
      ((⟨[⟨testCasePath, [PTok.e 0, PTok.semi, PTok.str (ofString "b")], 10⟩,
          ⟨ofString "test", [], 11⟩, ⟨ofString "should_panic", [], 12⟩], ofString "f",
         [FnArg.typed [] (ofString "n") (ofString "usize")], [Stmt.raw 0]⟩
        : ItemFn).attrs.filter (fun x => !(isCaseAttr x))) :=
  attr_passthrough_perm ⟨5, [Expr.atom 1], ofString "a"⟩
    ⟨[⟨testCasePath, [PTok.e 0, PTok.semi, PTok.str (ofString "b")], 10⟩,
      ⟨ofString "test", [], 11⟩, ⟨ofString "should_panic", [], 12⟩], ofString "f",
     [FnArg.typed [] (ofString "n") (ofString "usize")], [Stmt.raw 0]⟩
    ⟨ofString "f",
      [Except.ok ⟨[⟨ofString "should_panic", [], 12⟩, ⟨ofString "test", [], 11⟩],
         ofString "a", [],
         [Stmt.letBind (ofString "n") (ofString "usize") (Expr.atom 1), Stmt.raw 0]⟩,
       Except.ok ⟨[⟨ofString "should_panic", [], 12⟩, ⟨ofString "test", [], 11⟩],
         ofString "b", [],
         [Stmt.letBind (ofString "n") (ofString "usize") (Expr.atom 0), Stmt.raw 0]⟩]⟩
    ⟨[⟨ofString "should_panic", [], 12⟩, ⟨ofString "test", [], 11⟩], ofString "a", [],
      [Stmt.letBind (ofString "n") (ofString "usize") (Expr.atom 1), Stmt.raw 0]⟩
    (by decide) (by decide)

/-- Witness for C10 (amended) at the concrete ASCII display name `my case`. -/
theorem slugify_ident_totality_domain_witness :
    (slugify_ident (ofString "my case")).isSome = true ↔
      (ofString "my case" ≠ [] ∧ (ofString "my case").all identAllowedChar = true ∧
        startsWithNumeric (ofString "my case") = false) :=
  slugify_ident_totality_domain.1 (ofString "my case") (by decide)
